import Mathlib

set_option allowUnsafeReducibility true
attribute [semireducible] Rat.add Rat.sub Rat.mul Rat.div Rat.neg Rat.inv

/-!
# Verification of the ranking core (`src/utils/scoring.ts`)

Shallow embedding of the pairwise-majority ranking engine: the score
normalizer, the per-judge comparator, the majority evaluator, the
head-to-head reporter, the four-level tie-break cascade and the rank
assigner.  Scores are modelled as rationals (`ℚ`); `number | null`
entries become `Option ℚ`; JavaScript `Map`s that are only ever read
through `get` are modelled as functions `String → ℚ` updated pointwise;
the stable `Array.prototype.sort` is modelled as a stable insertion
sort over the comparator's induced preorder.
-/

/-- `TieBreakLevel` from `src/types/TieBreakLevel.ts`. -/
inductive TieBreakLevel where
  | directComparison
  | bScoreSum
  | comparisonAll
  | totalScore
deriving DecidableEq, Repr

/-- `SkaterScores` from `src/types/SkaterScores.ts`. -/
structure SkaterScores where
  name : String
  aScores : List (Option ℚ)
  bScores : List (Option ℚ)
deriving DecidableEq, Repr

/-- `HeadToHeadResult` from `src/types/HeadToHeadResult.ts`. -/
structure HeadToHeadResult where
  opponent : String
  won : Bool
  skaterVotes : ℕ
  opponentVotes : ℕ
deriving DecidableEq, Repr

/-- `SkaterResult` from `src/types/SkaterResult.ts` (the `tieBreakInfo`
provenance array is not modelled; no claim concerns it). -/
structure SkaterResult where
  name : String
  aScores : List (Option ℚ)
  bScores : List (Option ℚ)
  totalScore : ℚ
  rank : ℕ
  majorityVictories : ℚ
  tieBreakLevel : Option TieBreakLevel
  tieBreakValue : Option ℚ
  headToHeadResults : List HeadToHeadResult
deriving DecidableEq, Repr

/-- The `SkaterScores` part of a `SkaterResult` (in TypeScript,
`SkaterResult extends SkaterScores` and the fields are shared). -/
def SkaterResult.toScores (r : SkaterResult) : SkaterScores :=
  ⟨r.name, r.aScores, r.bScores⟩

/-- JavaScript `xs[i] ?? 0` on a `(number | null)[]`: out-of-bounds reads
give `undefined`, and both `undefined` and `null` coalesce to `0`. -/
def optQ (l : List (Option ℚ)) (i : ℕ) : ℚ :=
  (l.getD i none).getD 0

/-- `filter(s => s !== null).length`. -/
def countSome (l : List (Option ℚ)) : ℕ :=
  l.countP (fun o => o.isSome)

/-- The `numJudges` computed in `calculateJudgeTotals` (scoring.ts:26-29):
the larger of the counts of non-missing A and B entries. -/
def effectiveJudgeCount (s : SkaterScores) : ℕ :=
  max (countSome s.aScores) (countSome s.bScores)

/-- `calculateJudgeTotals` (scoring.ts:25-39). -/
def calculateJudgeTotals (skater : SkaterScores) : List ℚ :=
  (List.range (effectiveJudgeCount skater)).map
    (fun i => optQ skater.aScores i + optQ skater.bScores i)

/-- `calculateTotalScore` (scoring.ts:10-13). -/
def calculateTotalScore (skater : SkaterScores) : ℚ :=
  (calculateJudgeTotals skater).sum

/-- `roundToOneDecimal` (scoring.ts:18-20); JavaScript `Math.round`
rounds half toward positive infinity, i.e. `Math.round x = ⌊x + 1/2⌋`. -/
def roundToOneDecimal (num : ℚ) : ℚ :=
  (⌊num * 10 + 1 / 2⌋ : ℚ) / 10

/-- `compareSkatersByJudge` (scoring.ts:45-60). -/
def compareSkatersByJudge (skater1Total skater1BScore skater2Total skater2BScore : ℚ) : ℚ :=
  if skater1Total > skater2Total then 1
  else if skater2Total > skater1Total then 0
  else if skater1BScore > skater2BScore then 1
  else if skater2BScore > skater1BScore then 0
  else 1 / 2

/-- `pairwiseComparison` (scoring.ts:66-86). -/
def pairwiseComparison (skater1 skater2 : SkaterScores) : ℚ :=
  let totals1 := calculateJudgeTotals skater1
  let totals2 := calculateJudgeTotals skater2
  let numJudges := max totals1.length totals2.length
  ((List.range numJudges).map (fun i =>
    compareSkatersByJudge (totals1.getD i 0) (optQ skater1.bScores i)
      (totals2.getD i 0) (optQ skater2.bScores i))).sum

/-- The per-judge comparator outcomes tallied in the inner loop of
`calculateHeadToHeadDetails` (scoring.ts:117-131). -/
def judgeVotes (skater opponent : SkaterScores) : List ℚ :=
  let numJudges := max (effectiveJudgeCount skater) (effectiveJudgeCount opponent)
  (List.range numJudges).map (fun judgeIdx =>
    compareSkatersByJudge
      (optQ skater.aScores judgeIdx + optQ skater.bScores judgeIdx)
      (optQ skater.bScores judgeIdx)
      (optQ opponent.aScores judgeIdx + optQ opponent.bScores judgeIdx)
      (optQ opponent.bScores judgeIdx))

/-- One loop iteration of `calculateHeadToHeadDetails` (scoring.ts:98-138):
the head-to-head record of `skater` against a single `opponent`. -/
def calculateHeadToHeadOne (skater opponent : SkaterScores) : HeadToHeadResult :=
  let results := judgeVotes skater opponent
  let skaterVotes := results.countP (fun r => decide (r = 1))
  let opponentVotes := results.countP (fun r => decide (r = 0))
  { opponent := opponent.name
    won := decide (opponentVotes < skaterVotes)
    skaterVotes := skaterVotes
    opponentVotes := opponentVotes }

/-- `calculateHeadToHeadDetails` (scoring.ts:92-142): one record per
opponent whose name differs from the skater's, in input order. -/
def calculateHeadToHeadDetails (skater : SkaterScores) (allSkaters : List SkaterScores) :
    List HeadToHeadResult :=
  (allSkaters.filter (fun opponent => decide (opponent.name ≠ skater.name))).map
    (calculateHeadToHeadOne skater)

/-- `Map.set` on a map that is only read through `get`. -/
def setEntry (m : String → ℚ) (key : String) (x : ℚ) : String → ℚ :=
  fun n => if n = key then x else m n

/-- The ordered pairs `(skaters[i], skaters[j])`, `i < j`, visited by the
double loops of scoring.ts (e.g. lines 156-178), in visit order. -/
def upairs {α : Type} : List α → List (α × α)
  | [] => []
  | x :: xs => (xs.map (fun y => (x, y))) ++ upairs xs

/-- One iteration of the pairwise loop of `calculateMajorityVictories`
(scoring.ts:158-177). -/
def mvStep (victories : String → ℚ) (skater1 skater2 : SkaterScores) : String → ℚ :=
  let score1 := pairwiseComparison skater1 skater2
  let numJudges := max (calculateJudgeTotals skater1).length (calculateJudgeTotals skater2).length
  let score2 := (numJudges : ℚ) - score1
  if score1 > score2 then
    setEntry victories skater1.name (victories skater1.name + 1)
  else if score2 > score1 then
    setEntry victories skater2.name (victories skater2.name + 1)
  else
    let v' := setEntry victories skater1.name (victories skater1.name + 1 / 2)
    setEntry v' skater2.name (v' skater2.name + 1 / 2)

/-- `calculateMajorityVictories` (scoring.ts:147-182); the map starts
with every entry at `0`. -/
def calculateMajorityVictories (skaters : List SkaterScores) : String → ℚ :=
  (upairs skaters).foldl (fun v p => mvStep v p.1 p.2) (fun _ => 0)

/-- `calculateBScoreSum` (scoring.ts:187-191). -/
def calculateBScoreSum (skater : SkaterScores) : ℚ :=
  (skater.bScores.filterMap id).sum

/-- One iteration of the pairwise loop of `tieBreakByDirectComparison`
(scoring.ts:207-222). -/
def directCompStep (scores : String → ℚ) (skater1 skater2 : SkaterScores) : String → ℚ :=
  let score1 := pairwiseComparison skater1 skater2
  let numJudges := max (calculateJudgeTotals skater1).length (calculateJudgeTotals skater2).length
  let score2 := (numJudges : ℚ) - score1
  let s' := setEntry scores skater1.name (scores skater1.name + score1)
  setEntry s' skater2.name (s' skater2.name + score2)

/-- `tieBreakByDirectComparison` (scoring.ts:197-225). -/
def tieBreakByDirectComparison (tiedSkaters : List SkaterScores) : String → ℚ :=
  (upairs tiedSkaters).foldl (fun v p => directCompStep v p.1 p.2) (fun _ => 0)

/-- The `bScoreSums` map built at scoring.ts:340-343. -/
def bScoreSumsMap (tiedSkaters : List SkaterScores) : String → ℚ :=
  tiedSkaters.foldl (fun m skater => setEntry m skater.name (calculateBScoreSum skater)) (fun _ => 0)

/-- `tieBreakByComparisonWithAll` (scoring.ts:233-261). -/
def tieBreakByComparisonWithAll (tiedSkaters allSkaters : List SkaterScores) : String → ℚ :=
  tiedSkaters.foldl
    (fun m tiedSkater =>
      setEntry m tiedSkater.name
        (((allSkaters.filter (fun o => decide (o.name ≠ tiedSkater.name))).map
          (fun otherSkater => pairwiseComparison tiedSkater otherSkater)).sum))
    (fun _ => 0)

/-- The initial result record built at scoring.ts:281-290. -/
def mkInitResult (skater : SkaterScores) : SkaterResult :=
  { name := skater.name
    aScores := skater.aScores
    bScores := skater.bScores
    totalScore := roundToOneDecimal (calculateTotalScore skater)
    rank := 0
    majorityVictories := 0
    tieBreakLevel := none
    tieBreakValue := none
    headToHeadResults := [] }

/-- The results after the majority-victory / head-to-head pass of
scoring.ts:292-297. -/
def resultsWithMV (skaters : List SkaterScores) : List SkaterResult :=
  let victories := calculateMajorityVictories skaters
  skaters.map (fun skater =>
    { mkInitResult skater with
      majorityVictories := victories skater.name
      headToHeadResults := calculateHeadToHeadDetails skater skaters })

/-- The preorder induced by the sort comparator of scoring.ts:300-308:
`a` may precede `b` iff the comparator does not order `b` strictly
before `a`, i.e. iff `b.majorityVictories ≤ a.majorityVictories`. -/
def mvLE (a b : SkaterResult) : Prop :=
  b.majorityVictories ≤ a.majorityVictories

instance : DecidableRel mvLE := fun a b => inferInstanceAs (Decidable (_ ≤ _))

/-- scoring.ts:300-308: stable sort of the results, descending by
majority victories (ties keep input order). -/
def sortedByMV (skaters : List SkaterScores) : List SkaterResult :=
  List.insertionSort mvLE (resultsWithMV skaters)

/-- The grouping performed by the while loops of scoring.ts:314-323:
maximal runs of consecutive results with equal `majorityVictories`.
(The source compares each member against the run's first element; for
equality this is the same as comparing adjacent members.) -/
def splitRuns : List SkaterResult → List (List SkaterResult)
  | [] => []
  | [x] => [[x]]
  | x :: y :: rest =>
    match splitRuns (y :: rest) with
    | [] => [[x]]
    | r :: rs =>
      if x.majorityVictories = y.majorityVictories then (x :: r) :: rs
      else [x] :: r :: rs

/-- The preorder induced by the cascade comparator of scoring.ts:349-372,
reading the three tie-break maps: `a` may precede `b` iff the comparator
does not order `b` strictly before `a`. -/
def cascLE (cs bs ca : String → ℚ) (a b : SkaterResult) : Prop :=
  if cs a.name ≠ cs b.name then cs b.name < cs a.name
  else if bs a.name ≠ bs b.name then bs b.name < bs a.name
  else if ca a.name ≠ ca b.name then ca b.name < ca a.name
  else b.totalScore ≤ a.totalScore

instance (cs bs ca : String → ℚ) : DecidableRel (cascLE cs bs ca) := fun a b => by
  unfold cascLE
  infer_instance

/-- scoring.ts:330-372: the tied group, stably sorted by the four-level
cascade comparator (the maps are computed from the group's members and,
for level 3, the whole universe). -/
def sortTiedGroup (tiedGroup : List SkaterResult) (skaters : List SkaterScores) :
    List SkaterResult :=
  let tiedSkaters := tiedGroup.map SkaterResult.toScores
  List.insertionSort
    (cascLE (tieBreakByDirectComparison tiedSkaters) (bScoreSumsMap tiedSkaters)
      (tieBreakByComparisonWithAll tiedSkaters skaters))
    tiedGroup

/-- The backward-compatibility summary assignment of scoring.ts:412-424:
the first level at which the current member's value differs from the
neighbor's, together with the current member's value there; `none` when
all four levels agree. -/
def tieBreakSummary (curComp curBSum curCompAll curTotal nbComp nbBSum nbCompAll nbTotal : ℚ) :
    Option (TieBreakLevel × ℚ) :=
  if curComp ≠ nbComp then some (TieBreakLevel.directComparison, curComp)
  else if curBSum ≠ nbBSum then some (TieBreakLevel.bScoreSum, curBSum)
  else if curCompAll ≠ nbCompAll then some (TieBreakLevel.comparisonAll, curCompAll)
  else if curTotal ≠ nbTotal then some (TieBreakLevel.totalScore, curTotal)
  else none

/-- `map` with the element's index, starting at `k`. -/
def mapIdxFrom {α β : Type} (f : ℕ → α → β) : ℕ → List α → List β
  | _, [] => []
  | k, x :: xs => f k x :: mapIdxFrom f (k + 1) xs

/-- scoring.ts:374-424 for one sorted tied group: member `k` receives
rank `currentRank + k`, is compared with its neighbor (`k+1`, or `k-1`
for the last member) and gets the summary `tieBreakLevel`/`tieBreakValue`
fields. -/
def decorateGroup (cs bs ca : String → ℚ) (sortedGroup : List SkaterResult)
    (currentRank : ℕ) : List SkaterResult :=
  mapIdxFrom
    (fun k current =>
      let compareWith :=
        if k < sortedGroup.length - 1 then sortedGroup.getD (k + 1) current
        else sortedGroup.getD (k - 1) current
      let summary :=
        tieBreakSummary (cs current.name) (bs current.name) (ca current.name)
          current.totalScore (cs compareWith.name) (bs compareWith.name)
          (ca compareWith.name) compareWith.totalScore
      { current with
        rank := currentRank + k
        tieBreakLevel := summary.map Prod.fst
        tieBreakValue := summary.map Prod.snd })
    0 sortedGroup

/-- The body of the while loop of scoring.ts:314-520 for one group: a
singleton gets the next rank unchanged; a larger group is cascade-sorted
and decorated.  (The tie-break maps are recomputed here and inside
`sortTiedGroup`; in the source they are computed once, which is
extensionally the same since everything is pure.) -/
def processTiedGroup (tiedGroup : List SkaterResult) (skaters : List SkaterScores)
    (currentRank : ℕ) : List SkaterResult :=
  if tiedGroup.length ≤ 1 then
    tiedGroup.map (fun r => { r with rank := currentRank })
  else
    let tiedSkaters := tiedGroup.map SkaterResult.toScores
    decorateGroup (tieBreakByDirectComparison tiedSkaters) (bScoreSumsMap tiedSkaters)
      (tieBreakByComparisonWithAll tiedSkaters skaters)
      (sortTiedGroup tiedGroup skaters) currentRank

/-- The outer while loop of scoring.ts:311-520: process the groups left
to right, advancing `currentRank` by each group's size. -/
def assignAndProcess : List (List SkaterResult) → List SkaterScores → ℕ → List SkaterResult
  | [], _, _ => []
  | g :: rest, skaters, currentRank =>
    processTiedGroup g skaters currentRank ++
      assignAndProcess rest skaters (currentRank + g.length)

/-- The tied groups arising inside `calculateRankings`. -/
def rankingsGroups (skaters : List SkaterScores) : List (List SkaterResult) :=
  splitRuns (sortedByMV skaters)

/-- `calculateRankings` (scoring.ts:277-523). -/
def calculateRankings (skaters : List SkaterScores) : List SkaterResult :=
  if skaters.length = 0 then []
  else assignAndProcess (rankingsGroups skaters) skaters 1

/-! ## Basic facts about the normalizer and the comparator -/

theorem length_calculateJudgeTotals (s : SkaterScores) :
    (calculateJudgeTotals s).length = effectiveJudgeCount s := by
  simp [calculateJudgeTotals]

/-- The per-judge comparator only produces the values `1`, `0` and `1/2`. -/
theorem compareSkatersByJudge_cases (t1 b1 t2 b2 : ℚ) :
    compareSkatersByJudge t1 b1 t2 b2 = 1 ∨ compareSkatersByJudge t1 b1 t2 b2 = 0 ∨
      compareSkatersByJudge t1 b1 t2 b2 = 1 / 2 := by
  unfold compareSkatersByJudge
  split_ifs <;> norm_num

/-- Swapping the two skaters' data makes the per-judge results sum to `1`. -/
theorem compareSkatersByJudge_antisym (t1 b1 t2 b2 : ℚ) :
    compareSkatersByJudge t1 b1 t2 b2 + compareSkatersByJudge t2 b2 t1 b1 = 1 := by
  unfold compareSkatersByJudge
  split_ifs <;> linarith

theorem compareSkatersByJudge_nonneg (t1 b1 t2 b2 : ℚ) :
    0 ≤ compareSkatersByJudge t1 b1 t2 b2 := by
  unfold compareSkatersByJudge
  split_ifs <;> norm_num

theorem compareSkatersByJudge_le_one (t1 b1 t2 b2 : ℚ) :
    compareSkatersByJudge t1 b1 t2 b2 ≤ 1 := by
  unfold compareSkatersByJudge
  split_ifs <;> norm_num

/-- `pairwiseComparison` in both directions sums to the pair's judge count. -/
theorem pairwiseComparison_antisym (s1 s2 : SkaterScores) :
    pairwiseComparison s1 s2 + pairwiseComparison s2 s1 =
      ((max (effectiveJudgeCount s1) (effectiveJudgeCount s2) : ℕ) : ℚ) := by
  unfold pairwiseComparison
  simp only [length_calculateJudgeTotals]
  rw [Nat.max_comm (effectiveJudgeCount s2)]
  generalize max (effectiveJudgeCount s1) (effectiveJudgeCount s2) = n
  induction n with
  | zero => simp
  | succ m ih =>
    rw [List.range_succ]
    simp only [List.map_append, List.sum_append, List.map_cons, List.map_nil, List.sum_cons,
      List.sum_nil]
    push_cast
    have h := compareSkatersByJudge_antisym ((calculateJudgeTotals s1).getD m 0)
      (optQ s1.bScores m) ((calculateJudgeTotals s2).getD m 0) (optQ s2.bScores m)
    linarith

/-! ## C2: the per-judge comparator contract -/

/-- C2: for every quadruple `(totalA, bScoreA, totalB, bScoreB)` the
per-judge comparator returns `1` exactly when `totalA > totalB` or the
totals are exactly equal and `bScoreA > bScoreB`; `0` exactly in the
mirrored cases; and `1/2` exactly when both the totals and the B-scores
are exactly equal.  All comparisons are exact equality on `ℚ` — no
epsilon tolerance. -/
theorem judge_comparator_contract (totalA bScoreA totalB bScoreB : ℚ) :
    (compareSkatersByJudge totalA bScoreA totalB bScoreB = 1 ↔
      totalA > totalB ∨ (totalA = totalB ∧ bScoreA > bScoreB)) ∧
    (compareSkatersByJudge totalA bScoreA totalB bScoreB = 0 ↔
      totalB > totalA ∨ (totalA = totalB ∧ bScoreB > bScoreA)) ∧
    (compareSkatersByJudge totalA bScoreA totalB bScoreB = 1 / 2 ↔
      totalA = totalB ∧ bScoreA = bScoreB) := by
  unfold compareSkatersByJudge
  split_ifs with h1 h2 h3 h4 <;>
    refine ⟨⟨fun hv => ?_, fun hr => ?_⟩, ⟨fun hv => ?_, fun hr => ?_⟩,
      ⟨fun hv => ?_, fun hr => ?_⟩⟩ <;>
    first
      | rfl
      | (norm_num at hv; done)
      | (left; linarith)
      | (right; constructor <;> linarith)
      | (constructor <;> linarith)
      | (exfalso; rcases hr with h | ⟨he, hb⟩ <;> linarith)
      | (exfalso; obtain ⟨he, hb⟩ := hr; linarith)

/-! ## C10: antisymmetry / reciprocity of the pairwise comparison -/

/-- C10: the per-judge comparator is antisymmetric (swapped arguments
always sum to `1`), and consequently `pairwiseComparison` in the two
directions always sums to `max(effectiveCount X, effectiveCount Y)`,
even though e.g. `tieBreakByComparisonWithAll` recomputes both
directions independently instead of taking a complement. -/
theorem pairwise_comparison_reciprocity :
    (∀ t1 b1 t2 b2 : ℚ,
      compareSkatersByJudge t1 b1 t2 b2 + compareSkatersByJudge t2 b2 t1 b1 = 1) ∧
    ∀ s1 s2 : SkaterScores,
      pairwiseComparison s1 s2 + pairwiseComparison s2 s1 =
        ((max (effectiveJudgeCount s1) (effectiveJudgeCount s2) : ℕ) : ℚ) :=
  ⟨compareSkatersByJudge_antisym, pairwiseComparison_antisym⟩

/-! ## The per-pair award and the fold representation of the maps -/

/-- The majority-victory points skater `x` receives from the pair
`(x, y)`: `1` for a majority win, `0` for a loss, `1/2` for a tie
(scoring.ts:169-177). -/
def mvAward (x y : SkaterScores) : ℚ :=
  let score1 := pairwiseComparison x y
  let numJudges := max (calculateJudgeTotals x).length (calculateJudgeTotals y).length
  let score2 := (numJudges : ℚ) - score1
  if score1 > score2 then 1 else if score2 > score1 then 0 else 1 / 2

theorem pairwiseComparison_swap (x y : SkaterScores) :
    pairwiseComparison y x =
      ((max (calculateJudgeTotals x).length (calculateJudgeTotals y).length : ℕ) : ℚ) -
        pairwiseComparison x y := by
  have h := pairwiseComparison_antisym x y
  simp only [length_calculateJudgeTotals]
  linarith

theorem mvAward_add (x y : SkaterScores) : mvAward x y + mvAward y x = 1 := by
  have hswap := pairwiseComparison_swap x y
  have hM : ((max (calculateJudgeTotals y).length (calculateJudgeTotals x).length : ℕ) : ℚ) =
      ((max (calculateJudgeTotals x).length (calculateJudgeTotals y).length : ℕ) : ℚ) := by
    rw [Nat.max_comm]
  unfold mvAward
  dsimp only
  split_ifs <;> linarith

theorem mvAward_cases (x y : SkaterScores) :
    mvAward x y = 0 ∨ mvAward x y = 1 / 2 ∨ mvAward x y = 1 := by
  unfold mvAward
  dsimp only
  split_ifs <;> norm_num

theorem mvAward_nonneg (x y : SkaterScores) : 0 ≤ mvAward x y := by
  rcases mvAward_cases x y with h | h | h <;> rw [h] <;> norm_num

theorem mvAward_le_one (x y : SkaterScores) : mvAward x y ≤ 1 := by
  rcases mvAward_cases x y with h | h | h <;> rw [h] <;> norm_num

/-- Pointwise effect of one `calculateMajorityVictories` loop iteration,
for a pair of distinct names. -/
theorem mvStep_apply (v : String → ℚ) (x y : SkaterScores) (h : x.name ≠ y.name) (n : String) :
    mvStep v x y n =
      v n + (if n = x.name then mvAward x y else 0) +
        (if n = y.name then mvAward y x else 0) := by
  have hswap := pairwiseComparison_swap x y
  have hM : ((max (calculateJudgeTotals y).length (calculateJudgeTotals x).length : ℕ) : ℚ) =
      ((max (calculateJudgeTotals x).length (calculateJudgeTotals y).length : ℕ) : ℚ) := by
    rw [Nat.max_comm]
  unfold mvStep mvAward setEntry
  dsimp only
  split_ifs <;> (try subst_vars) <;> (try dsimp only) <;> (try split_ifs) <;>
    first
      | rfl
      | linarith
      | simp_all only [ne_eq, eq_self_iff_true, not_true_eq_false]
      | (exfalso; apply h; rfl)
      | (exfalso; apply h; assumption)
      | (exfalso; apply h; symm; assumption)

/-- Pointwise effect of one `tieBreakByDirectComparison` loop iteration:
`x` gains `pairwiseComparison x y` and `y` gains the complement, which
by antisymmetry is `pairwiseComparison y x`. -/
theorem directCompStep_apply (v : String → ℚ) (x y : SkaterScores) (h : x.name ≠ y.name)
    (n : String) :
    directCompStep v x y n =
      v n + (if n = x.name then pairwiseComparison x y else 0) +
        (if n = y.name then pairwiseComparison y x else 0) := by
  have hswap := pairwiseComparison_swap x y
  unfold directCompStep setEntry
  try dsimp only
  split_ifs <;> (try subst_vars) <;> (try dsimp only) <;> (try split_ifs) <;>
    first
      | rfl
      | linarith
      | simp_all only [ne_eq, eq_self_iff_true, not_true_eq_false]
      | (exfalso; apply h; rfl)
      | (exfalso; apply h; assumption)
      | (exfalso; apply h; symm; assumption)

/-- A pairwise loop whose step adds `award p q` to `p.name` and
`award q p` to `q.name` computes, pointwise, the initial value plus a
sum over the visited pair list. -/
theorem foldl_step_apply
    (step : (String → ℚ) → SkaterScores → SkaterScores → (String → ℚ))
    (award : SkaterScores → SkaterScores → ℚ)
    (hstep : ∀ v x y, x.name ≠ y.name → ∀ n,
      step v x y n = v n + (if n = x.name then award x y else 0) +
        (if n = y.name then award y x else 0))
    (L : List (SkaterScores × SkaterScores)) (n : String) :
    ∀ v : String → ℚ, (∀ p ∈ L, (p.1 : SkaterScores).name ≠ (p.2 : SkaterScores).name) →
    (L.foldl (fun v p => step v p.1 p.2) v) n =
      v n + ((L.map (fun p =>
        (if n = (p.1 : SkaterScores).name then award p.1 p.2 else 0) +
          (if n = (p.2 : SkaterScores).name then award p.2 p.1 else 0))).sum) := by
  induction L with
  | nil => simp
  | cons p L ih =>
    intro v hL
    simp only [List.foldl_cons, List.map_cons, List.sum_cons]
    rw [ih (step v p.1 p.2) (fun q hq => hL q (List.mem_cons_of_mem p hq))]
    rw [hstep v p.1 p.2 (hL p (List.mem_cons_self p L)) n]
    ring

/-! ## The visited pairs and the value of the accumulator maps -/

theorem upairs_mem {α : Type} (l : List α) (p : α × α) (hp : p ∈ upairs l) :
    p.1 ∈ l ∧ p.2 ∈ l := by
  induction l with
  | nil => simp [upairs] at hp
  | cons x xs ih =>
    simp only [upairs, List.mem_append, List.mem_map] at hp
    rcases hp with ⟨y, hy, rfl⟩ | hp
    · exact ⟨List.mem_cons_self x xs, List.mem_cons_of_mem x hy⟩
    · obtain ⟨h1, h2⟩ := ih hp
      exact ⟨List.mem_cons_of_mem x h1, List.mem_cons_of_mem x h2⟩

theorem upairs_pairwise {α : Type} (R : α → α → Prop) (l : List α)
    (h : List.Pairwise R l) : ∀ p ∈ upairs l, R p.1 p.2 := by
  induction l with
  | nil => intro p hp; simp [upairs] at hp
  | cons x xs ih =>
    intro p hp
    rcases List.pairwise_cons.mp h with ⟨hx, hxs⟩
    simp only [upairs, List.mem_append, List.mem_map] at hp
    rcases hp with ⟨y, hy, rfl⟩ | hp
    · exact hx y hy
    · exact ih hxs p hp

/-- The names of a list whose mapped names are `Nodup` are pairwise
distinct. -/
theorem namesPairwise (l : List SkaterScores) (h : (l.map SkaterScores.name).Nodup) :
    List.Pairwise (fun a b : SkaterScores => a.name ≠ b.name) l :=
  List.pairwise_map.mp h

/-- Summing an indicator over a list with pairwise-distinct names picks
out the single element with the given name. -/
theorem sum_single_name (as : List SkaterScores)
    (hpw : List.Pairwise (fun a b : SkaterScores => a.name ≠ b.name) as)
    (x : SkaterScores) (hx : x ∈ as) (g : SkaterScores → ℚ) :
    ((as.map (fun y => if x.name = y.name then g y else 0)).sum) = g x := by
  induction as with
  | nil => cases hx
  | cons b bs ih =>
    rcases List.pairwise_cons.mp hpw with ⟨hb, hbs⟩
    simp only [List.map_cons, List.sum_cons]
    rcases List.mem_cons.mp hx with rfl | hx'
    · rw [if_pos rfl]
      have hz : ((bs.map (fun y => if x.name = y.name then g y else 0)).sum) = 0 := by
        apply List.sum_eq_zero
        intro q hq
        simp only [List.mem_map] at hq
        obtain ⟨y, hy, rfl⟩ := hq
        exact if_neg (fun he => hb y hy he)
      rw [hz, add_zero]
    · rw [if_neg (fun he => hb x hx' he.symm), ih hbs hx', zero_add]

/-- The pointwise sum over the visited pairs, read at the name of a
member `x` of a distinct-names list, is the sum of `award x y` over the
other members. -/
theorem upairs_value_rep (award : SkaterScores → SkaterScores → ℚ) (l : List SkaterScores)
    (hpw : List.Pairwise (fun a b : SkaterScores => a.name ≠ b.name) l)
    (x : SkaterScores) (hx : x ∈ l) :
    (((upairs l).map (fun p =>
        (if x.name = (p.1 : SkaterScores).name then award p.1 p.2 else 0) +
          (if x.name = (p.2 : SkaterScores).name then award p.2 p.1 else 0))).sum) =
      ((l.filter (fun y => decide (y.name ≠ x.name))).map (fun y => award x y)).sum := by
  induction l with
  | nil => cases hx
  | cons a as ih =>
    rcases List.pairwise_cons.mp hpw with ⟨ha, has⟩
    simp only [upairs, List.map_append, List.sum_append, List.map_map]
    rcases List.mem_cons.mp hx with rfl | hx'
    · have h1 : (as.map ((fun p : SkaterScores × SkaterScores =>
          (if x.name = (p.1 : SkaterScores).name then award p.1 p.2 else 0) +
            (if x.name = (p.2 : SkaterScores).name then award p.2 p.1 else 0)) ∘
          (fun y => (x, y)))) = as.map (fun y => award x y) := by
        apply List.map_congr_left
        intro y hy
        simp only [Function.comp_apply]
        rw [if_pos trivial, if_neg (ha y hy), add_zero]
      have h2 : (((upairs as).map (fun p =>
          (if x.name = (p.1 : SkaterScores).name then award p.1 p.2 else 0) +
            (if x.name = (p.2 : SkaterScores).name then award p.2 p.1 else 0))).sum) = 0 := by
        apply List.sum_eq_zero
        intro q hq
        simp only [List.mem_map] at hq
        obtain ⟨p, hp, rfl⟩ := hq
        obtain ⟨hp1, hp2⟩ := upairs_mem as p hp
        rw [if_neg (ha p.1 hp1), if_neg (ha p.2 hp2), add_zero]
      have h3 : (x :: as).filter (fun y => decide (y.name ≠ x.name)) = as := by
        rw [List.filter_cons_of_neg (by simp)]
        exact List.filter_eq_self.mpr (fun y hy => decide_eq_true (ha y hy).symm)
      rw [h1, h2, add_zero, h3]
    · have hax : a.name ≠ x.name := ha x hx'
      have h1 : (as.map ((fun p : SkaterScores × SkaterScores =>
          (if x.name = (p.1 : SkaterScores).name then award p.1 p.2 else 0) +
            (if x.name = (p.2 : SkaterScores).name then award p.2 p.1 else 0)) ∘
          (fun y => (a, y)))) =
          as.map (fun y => if x.name = y.name then award y a else 0) := by
        apply List.map_congr_left
        intro y hy
        simp only [Function.comp_apply]
        rw [if_neg (fun he => hax he.symm), zero_add]
      have h3 : (a :: as).filter (fun y => decide (y.name ≠ x.name)) =
          a :: as.filter (fun y => decide (y.name ≠ x.name)) := by
        rw [List.filter_cons_of_pos (by simp [hax])]
      rw [h1, sum_single_name as has x hx' (fun y => award y a), ih has hx', h3]
      simp only [List.map_cons, List.sum_cons]

/-- For distinct competitor names, the majority-victory map holds, at a
member's name, the sum of that member's per-pair awards against every
other competitor. -/
theorem calculateMajorityVictories_rep (skaters : List SkaterScores)
    (h : (skaters.map SkaterScores.name).Nodup) (x : SkaterScores) (hx : x ∈ skaters) :
    calculateMajorityVictories skaters x.name =
      ((skaters.filter (fun y => decide (y.name ≠ x.name))).map (fun y => mvAward x y)).sum := by
  have hpw := namesPairwise skaters h
  unfold calculateMajorityVictories
  rw [foldl_step_apply mvStep mvAward mvStep_apply (upairs skaters) x.name (fun _ => 0)
    (upairs_pairwise _ skaters hpw)]
  rw [upairs_value_rep mvAward skaters hpw x hx]
  simp

/-- For distinct names, the level-1 tie-break map holds, at a member's
name, the sum of that member's pairwise-comparison scores against the
other members of the tied group. -/
theorem tieBreakByDirectComparison_rep (tied : List SkaterScores)
    (hpw : List.Pairwise (fun a b : SkaterScores => a.name ≠ b.name) tied)
    (x : SkaterScores) (hx : x ∈ tied) :
    tieBreakByDirectComparison tied x.name =
      ((tied.filter (fun y => decide (y.name ≠ x.name))).map
        (fun y => pairwiseComparison x y)).sum := by
  unfold tieBreakByDirectComparison
  rw [foldl_step_apply directCompStep pairwiseComparison directCompStep_apply (upairs tied)
    x.name (fun _ => 0) (upairs_pairwise _ tied hpw)]
  rw [upairs_value_rep pairwiseComparison tied hpw x hx]
  simp

theorem sum_map_add' {α : Type} (l : List α) (f g : α → ℚ) :
    (l.map (fun x => f x + g x)).sum = (l.map f).sum + (l.map g).sum := by
  induction l with
  | nil => simp
  | cons a l ih => simp only [List.map_cons, List.sum_cons, ih]; ring

theorem sum_map_one {α : Type} (l : List α) :
    (l.map (fun _ => (1 : ℚ))).sum = (l.length : ℚ) := by
  induction l with
  | nil => simp
  | cons a l ih => simp [ih, add_comm]

/-- All the elements kept by the name filter, plus the removed member,
make up the whole list. -/
theorem filter_ne_length (skaters : List SkaterScores)
    (hpw : List.Pairwise (fun a b : SkaterScores => a.name ≠ b.name) skaters)
    (x : SkaterScores) (hx : x ∈ skaters) :
    (skaters.filter (fun y => decide (y.name ≠ x.name))).length + 1 = skaters.length := by
  induction skaters with
  | nil => cases hx
  | cons a as ih =>
    rcases List.pairwise_cons.mp hpw with ⟨ha, has⟩
    rcases List.mem_cons.mp hx with rfl | hx'
    · rw [List.filter_cons_of_neg (by simp)]
      rw [List.filter_eq_self.mpr (fun y hy => decide_eq_true ((ha y hy).symm))]
      simp
    · rw [List.filter_cons_of_pos (by exact decide_eq_true (ha x hx'))]
      simp only [List.length_cons]
      rw [← ih has hx']

theorem sum_halfint (L : List ℚ) (h : ∀ q ∈ L, q = 0 ∨ q = 1 / 2 ∨ q = 1) :
    ∃ k : ℕ, L.sum = (k : ℚ) / 2 := by
  induction L with
  | nil => exact ⟨0, by simp⟩
  | cons a L ih =>
    obtain ⟨k, hk⟩ := ih (fun q hq => h q (List.mem_cons_of_mem a hq))
    rcases h a (List.mem_cons_self a L) with ha | ha | ha
    · exact ⟨k, by rw [List.sum_cons, ha, hk]; ring⟩
    · exact ⟨k + 1, by rw [List.sum_cons, ha, hk]; push_cast; ring⟩
    · exact ⟨k + 2, by rw [List.sum_cons, ha, hk]; push_cast; ring⟩

theorem sum_le_length (L : List ℚ) (h : ∀ q ∈ L, q ≤ 1) : L.sum ≤ (L.length : ℚ) := by
  induction L with
  | nil => simp
  | cons a L ih =>
    simp only [List.sum_cons, List.length_cons]
    push_cast
    have h1 := h a (List.mem_cons_self a L)
    have h2 := ih (fun q hq => h q (List.mem_cons_of_mem a hq))
    linarith

/-- Doubled conservation: over a distinct-names list, the per-pair
awards total one point per unordered pair. -/
theorem conservation_aux (skaters : List SkaterScores)
    (hpw : List.Pairwise (fun a b : SkaterScores => a.name ≠ b.name) skaters) :
    2 * ((skaters.map (fun x =>
        ((skaters.filter (fun y => decide (y.name ≠ x.name))).map
          (fun y => mvAward x y)).sum)).sum) =
      (skaters.length : ℚ) * ((skaters.length : ℚ) - 1) := by
  induction skaters with
  | nil => simp
  | cons a as ih =>
    rcases List.pairwise_cons.mp hpw with ⟨ha, has⟩
    simp only [List.map_cons, List.sum_cons]
    have hfa : (a :: as).filter (fun y => decide (y.name ≠ a.name)) = as := by
      rw [List.filter_cons_of_neg (by simp)]
      exact List.filter_eq_self.mpr (fun y hy => decide_eq_true ((ha y hy).symm))
    have hmap : (as.map (fun x =>
        (((a :: as).filter (fun y => decide (y.name ≠ x.name))).map
          (fun y => mvAward x y)).sum)) =
        as.map (fun x => mvAward x a +
          ((as.filter (fun y => decide (y.name ≠ x.name))).map (fun y => mvAward x y)).sum) := by
      apply List.map_congr_left
      intro x hxas
      rw [List.filter_cons_of_pos (by exact decide_eq_true (ha x hxas))]
      rw [List.map_cons, List.sum_cons]
    rw [hfa, hmap, sum_map_add']
    have hpair : ((as.map (fun y => mvAward a y)).sum) + ((as.map (fun x => mvAward x a)).sum) =
        (as.length : ℚ) := by
      rw [← sum_map_add']
      rw [List.map_congr_left (fun y _ => mvAward_add a y), sum_map_one]
    have hih := ih has
    simp only [List.length_cons]
    push_cast
    linarith

/-! ## C3: majority-victory invariants -/

/-- C3 (amended: under pairwise-distinct competitor names — the victory
map is keyed by name, so duplicate names merge entries and break the
invariant): every competitor's majority-victory value is a multiple of
`1/2` lying in `[0, n-1]`, and the values over all competitors sum to
`n(n-1)/2`. -/
theorem majority_victories_invariants (skaters : List SkaterScores)
    (h : (skaters.map SkaterScores.name).Nodup) :
    (∀ x ∈ skaters,
      (∃ k : ℕ, calculateMajorityVictories skaters x.name = (k : ℚ) / 2) ∧
      0 ≤ calculateMajorityVictories skaters x.name ∧
      calculateMajorityVictories skaters x.name ≤ (skaters.length : ℚ) - 1) ∧
    (skaters.map (fun x => calculateMajorityVictories skaters x.name)).sum =
      (skaters.length : ℚ) * ((skaters.length : ℚ) - 1) / 2 := by
  have hpw := namesPairwise skaters h
  constructor
  · intro x hx
    rw [calculateMajorityVictories_rep skaters h x hx]
    refine ⟨?_, ?_, ?_⟩
    · apply sum_halfint
      intro q hq
      simp only [List.mem_map] at hq
      obtain ⟨y, hy, rfl⟩ := hq
      exact mvAward_cases x y
    · apply List.sum_nonneg
      intro q hq
      simp only [List.mem_map] at hq
      obtain ⟨y, hy, rfl⟩ := hq
      exact mvAward_nonneg x y
    · have hlen := filter_ne_length skaters hpw x hx
      have hle : ((skaters.filter (fun y => decide (y.name ≠ x.name))).map
          (fun y => mvAward x y)).sum ≤
          (((skaters.filter (fun y => decide (y.name ≠ x.name))).map
            (fun y => mvAward x y)).length : ℚ) := by
        apply sum_le_length
        intro q hq
        simp only [List.mem_map] at hq
        obtain ⟨y, hy, rfl⟩ := hq
        exact mvAward_le_one x y
      rw [List.length_map] at hle
      have hcast : ((skaters.filter (fun y => decide (y.name ≠ x.name))).length : ℚ) + 1 =
          (skaters.length : ℚ) := by
        exact_mod_cast congrArg (fun n : ℕ => (n : ℚ)) hlen
      linarith
  · have hcons := conservation_aux skaters hpw
    have hmap : (skaters.map (fun x => calculateMajorityVictories skaters x.name)) =
        skaters.map (fun x => ((skaters.filter (fun y => decide (y.name ≠ x.name))).map
          (fun y => mvAward x y)).sum) :=
      List.map_congr_left (fun x hx => calculateMajorityVictories_rep skaters h x hx)
    rw [hmap]
    linarith

/-- A duplicate-name input for the majority-victory invariants. -/
def dupNameSkaters : List SkaterScores :=
  [⟨"A", [some 1], [some 1]⟩, ⟨"A", [some 1], [some 1]⟩, ⟨"B", [some 0], [some 0]⟩]

/-- C3 counterexample: with duplicate competitor names the victory map
(keyed by name) merges entries; on `dupNameSkaters` (n = 3) both "A"
competitors read majority-victory value 3 > n−1 = 2, and the values over
the competitors sum to 6 ≠ n(n−1)/2 = 3. -/
theorem majority_victories_invariants_cex :
    (dupNameSkaters.getD 0 ⟨"", [], []⟩) ∈ dupNameSkaters ∧
    calculateMajorityVictories dupNameSkaters (dupNameSkaters.getD 0 ⟨"", [], []⟩).name = 3 ∧
    ¬ (calculateMajorityVictories dupNameSkaters (dupNameSkaters.getD 0 ⟨"", [], []⟩).name ≤
      (dupNameSkaters.length : ℚ) - 1) ∧
    (dupNameSkaters.map (fun x => calculateMajorityVictories dupNameSkaters x.name)).sum = 6 ∧
    ¬ ((dupNameSkaters.map (fun x => calculateMajorityVictories dupNameSkaters x.name)).sum =
      (dupNameSkaters.length : ℚ) * ((dupNameSkaters.length : ℚ) - 1) / 2) := by
  decide

/-- A small distinct-names input for the majority-victory invariants. -/
def twoSkaters : List SkaterScores :=
  [⟨"A", [some 2], [some 1]⟩, ⟨"B", [some 1], [some 1]⟩]

theorem majority_victories_invariants_witness :
    (twoSkaters.map (fun x => calculateMajorityVictories twoSkaters x.name)).sum =
      (twoSkaters.length : ℚ) * ((twoSkaters.length : ℚ) - 1) / 2 :=
  (majority_victories_invariants twoSkaters (by decide)).2

/-! ## C5: the score normalizer -/

theorem countP_add_countP_le {α : Type} (l : List α) (p q : α → Bool)
    (h : ∀ a ∈ l, ¬(p a = true ∧ q a = true)) :
    l.countP p + l.countP q ≤ l.length := by
  induction l with
  | nil => simp
  | cons a l ih =>
    rw [List.countP_cons, List.countP_cons]
    have hl := ih (fun b hb => h b (List.mem_cons_of_mem a hb))
    have ha := h a (List.mem_cons_self a l)
    by_cases hp : p a = true <;> by_cases hq : q a = true
    · exact absurd ⟨hp, hq⟩ ha
    · rw [if_pos hp, if_neg hq, List.length_cons]; omega
    · rw [if_neg hp, if_pos hq, List.length_cons]; omega
    · rw [if_neg hp, if_neg hq, List.length_cons]; omega

/-- C5: the normalizer returns one total per effective judge (the larger
of the two non-missing counts), entry `i` being `technical[i]`-or-0 plus
`artistic[i]`-or-0; a competitor with no valid entry in either sequence
yields the empty sequence, and two such competitors tie 0/0, each
receiving 0.5 majority-victory points. -/
theorem normalizer_contract (s : SkaterScores) :
    (calculateJudgeTotals s).length = max (countSome s.aScores) (countSome s.bScores) ∧
    (∀ i, i < effectiveJudgeCount s →
      (calculateJudgeTotals s).getD i 0 = optQ s.aScores i + optQ s.bScores i) ∧
    (countSome s.aScores = 0 → countSome s.bScores = 0 → calculateJudgeTotals s = []) ∧
    (∀ s2 : SkaterScores, effectiveJudgeCount s = 0 → effectiveJudgeCount s2 = 0 →
      pairwiseComparison s s2 = 0 ∧ pairwiseComparison s2 s = 0 ∧
      (s.name ≠ s2.name →
        calculateMajorityVictories [s, s2] s.name = 1 / 2 ∧
        calculateMajorityVictories [s, s2] s2.name = 1 / 2)) := by
  refine ⟨?_, ?_, ?_, ?_⟩
  · simp [calculateJudgeTotals, effectiveJudgeCount]
  · intro i hi
    unfold calculateJudgeTotals
    rw [List.getD_eq_getElem _ _ (by simpa using hi)]
    simp
  · intro h1 h2
    unfold calculateJudgeTotals effectiveJudgeCount
    rw [h1, h2]
    simp
  · intro s2 h1 h2
    have hpw0 : pairwiseComparison s s2 = 0 := by
      unfold pairwiseComparison
      simp [length_calculateJudgeTotals, h1, h2]
    have hpw0' : pairwiseComparison s2 s = 0 := by
      unfold pairwiseComparison
      simp [length_calculateJudgeTotals, h1, h2]
    refine ⟨hpw0, hpw0', fun hname => ?_⟩
    have haward : mvAward s s2 = 1 / 2 := by
      unfold mvAward
      dsimp only
      rw [hpw0]
      simp [length_calculateJudgeTotals, h1, h2]
    have haward' : mvAward s2 s = 1 / 2 := by
      have h := mvAward_add s s2
      linarith
    have hu : upairs [s, s2] = [(s, s2)] := by simp [upairs]
    constructor
    · unfold calculateMajorityVictories
      rw [hu]
      simp only [List.foldl_cons, List.foldl_nil]
      rw [mvStep_apply _ _ _ hname, if_pos rfl, if_neg hname, haward]
      ring
    · unfold calculateMajorityVictories
      rw [hu]
      simp only [List.foldl_cons, List.foldl_nil]
      rw [mvStep_apply _ _ _ hname, if_neg (fun he => hname he.symm), if_pos rfl, haward']
      ring

/-! ## C6 and C7: the head-to-head reporter -/

/-- C6: every head-to-head entry belongs to an opponent with a different
name; `skaterVotes` counts judges scored `1` by the comparator and
`opponentVotes` those scored `0`; per-judge ties count for neither, so
the two tallies sum to at most the pair's judge count; `won` holds
exactly when `skaterVotes` is strictly larger. -/
theorem head_to_head_tally (skater : SkaterScores) (allSkaters : List SkaterScores) :
    ∀ e ∈ calculateHeadToHeadDetails skater allSkaters,
      ∃ opponent ∈ allSkaters, opponent.name ≠ skater.name ∧
        e = calculateHeadToHeadOne skater opponent ∧
        e.skaterVotes = ((judgeVotes skater opponent).countP (fun r => decide (r = 1))) ∧
        e.opponentVotes = ((judgeVotes skater opponent).countP (fun r => decide (r = 0))) ∧
        (e.won = true ↔ e.opponentVotes < e.skaterVotes) ∧
        e.skaterVotes + e.opponentVotes ≤
          max (effectiveJudgeCount skater) (effectiveJudgeCount opponent) := by
  intro e he
  unfold calculateHeadToHeadDetails at he
  simp only [List.mem_map, List.mem_filter] at he
  obtain ⟨opponent, ⟨hmem, hname⟩, rfl⟩ := he
  refine ⟨opponent, hmem, of_decide_eq_true hname, rfl, rfl, rfl, ?_, ?_⟩
  · simp [calculateHeadToHeadOne]
  · have hlen : (judgeVotes skater opponent).length =
        max (effectiveJudgeCount skater) (effectiveJudgeCount opponent) := by
      simp [judgeVotes]
    calc (calculateHeadToHeadOne skater opponent).skaterVotes +
          (calculateHeadToHeadOne skater opponent).opponentVotes
        = (judgeVotes skater opponent).countP (fun r => decide (r = 1)) +
            (judgeVotes skater opponent).countP (fun r => decide (r = 0)) := rfl
      _ ≤ (judgeVotes skater opponent).length := by
          apply countP_add_countP_le
          intro a _
          simp only [decide_eq_true_eq, not_and]
          intro h1 h0
          rw [h1] at h0
          norm_num at h0
      _ = max (effectiveJudgeCount skater) (effectiveJudgeCount opponent) := hlen

/-- C7: head-to-head entries are reciprocal: for competitors with
distinct names, the `votesFor` that X's entry records against Y equals
the `votesAgainst` that Y's entry records against X, and vice versa;
and X's list does contain the entry for Y. -/
theorem head_to_head_reciprocity (skaters : List SkaterScores) :
    ∀ x ∈ skaters, ∀ y ∈ skaters, x.name ≠ y.name →
      calculateHeadToHeadOne x y ∈ calculateHeadToHeadDetails x skaters ∧
      (calculateHeadToHeadOne x y).skaterVotes = (calculateHeadToHeadOne y x).opponentVotes ∧
      (calculateHeadToHeadOne x y).opponentVotes = (calculateHeadToHeadOne y x).skaterVotes := by
  intro x hx y hy hname
  refine ⟨?_, ?_, ?_⟩
  · unfold calculateHeadToHeadDetails
    exact List.mem_map_of_mem _
      (List.mem_filter.mpr ⟨hy, decide_eq_true (fun he => hname he.symm)⟩)
  · show (judgeVotes x y).countP (fun r => decide (r = 1)) =
      (judgeVotes y x).countP (fun r => decide (r = 0))
    unfold judgeVotes
    dsimp only
    rw [Nat.max_comm (effectiveJudgeCount y) (effectiveJudgeCount x)]
    rw [List.countP_map, List.countP_map]
    apply List.countP_congr
    intro j _
    simp only [Function.comp_apply, decide_eq_true_eq]
    have h := compareSkatersByJudge_antisym
      (optQ x.aScores j + optQ x.bScores j) (optQ x.bScores j)
      (optQ y.aScores j + optQ y.bScores j) (optQ y.bScores j)
    constructor <;> intro h' <;> linarith
  · show (judgeVotes x y).countP (fun r => decide (r = 0)) =
      (judgeVotes y x).countP (fun r => decide (r = 1))
    unfold judgeVotes
    dsimp only
    rw [Nat.max_comm (effectiveJudgeCount y) (effectiveJudgeCount x)]
    rw [List.countP_map, List.countP_map]
    apply List.countP_congr
    intro j _
    simp only [Function.comp_apply, decide_eq_true_eq]
    have h := compareSkatersByJudge_antisym
      (optQ x.aScores j + optQ x.bScores j) (optQ x.bScores j)
      (optQ y.aScores j + optQ y.bScores j) (optQ y.bScores j)
    constructor <;> intro h' <;> linarith

/-! ## C8: edge cases of the ranking transform -/

/-- C8: the ranking transform is a total function; an empty competitor
list yields the empty result collection, and a single competitor yields
exactly one result with rank 1, majorityVictories 0, no tie-break data
and an empty head-to-head list. -/
theorem rankings_edge_cases :
    calculateRankings [] = [] ∧
    ∀ s : SkaterScores, calculateRankings [s] =
      [{ name := s.name, aScores := s.aScores, bScores := s.bScores,
         totalScore := roundToOneDecimal (calculateTotalScore s), rank := 1,
         majorityVictories := 0, tieBreakLevel := none, tieBreakValue := none,
         headToHeadResults := [] }] := by
  constructor
  · rfl
  · intro s
    unfold calculateRankings rankingsGroups sortedByMV resultsWithMV
      calculateMajorityVictories calculateHeadToHeadDetails
    simp [upairs, splitRuns, assignAndProcess, processTiedGroup, mkInitResult,
      List.insertionSort, List.orderedInsert]

/-! ## Concrete witnesses for the hypotheses-bearing theorems above -/

theorem normalizer_contract_witness :
    calculateMajorityVictories [⟨"Z", [], []⟩, ⟨"W", [], []⟩] "Z" = 1 / 2 :=
  (((normalizer_contract ⟨"Z", [], []⟩).2.2.2 ⟨"W", [], []⟩ (by decide) (by decide)).2.2
    (by decide)).1

def wSkaterA : SkaterScores := ⟨"A", [some 1, some 1], [some 1, some 0]⟩

def wSkaterB : SkaterScores := ⟨"B", [some 1, some 0], [some 1, some 1]⟩

theorem head_to_head_tally_witness :
    ∃ opponent ∈ [wSkaterA, wSkaterB], opponent.name ≠ wSkaterA.name ∧
      calculateHeadToHeadOne wSkaterA wSkaterB = calculateHeadToHeadOne wSkaterA opponent ∧
      (calculateHeadToHeadOne wSkaterA wSkaterB).skaterVotes =
        ((judgeVotes wSkaterA opponent).countP (fun r => decide (r = 1))) ∧
      (calculateHeadToHeadOne wSkaterA wSkaterB).opponentVotes =
        ((judgeVotes wSkaterA opponent).countP (fun r => decide (r = 0))) ∧
      ((calculateHeadToHeadOne wSkaterA wSkaterB).won = true ↔
        (calculateHeadToHeadOne wSkaterA wSkaterB).opponentVotes <
          (calculateHeadToHeadOne wSkaterA wSkaterB).skaterVotes) ∧
      (calculateHeadToHeadOne wSkaterA wSkaterB).skaterVotes +
        (calculateHeadToHeadOne wSkaterA wSkaterB).opponentVotes ≤
          max (effectiveJudgeCount wSkaterA) (effectiveJudgeCount opponent) :=
  head_to_head_tally wSkaterA [wSkaterA, wSkaterB]
    (calculateHeadToHeadOne wSkaterA wSkaterB) (by decide)

theorem head_to_head_reciprocity_witness :
    calculateHeadToHeadOne wSkaterA wSkaterB ∈
      calculateHeadToHeadDetails wSkaterA [wSkaterA, wSkaterB] ∧
    (calculateHeadToHeadOne wSkaterA wSkaterB).skaterVotes =
      (calculateHeadToHeadOne wSkaterB wSkaterA).opponentVotes ∧
    (calculateHeadToHeadOne wSkaterA wSkaterB).opponentVotes =
      (calculateHeadToHeadOne wSkaterB wSkaterA).skaterVotes :=
  head_to_head_reciprocity [wSkaterA, wSkaterB] wSkaterA (by decide) wSkaterB (by decide)
    (by decide)

/-! ## The two sort comparators are total preorders -/

instance : IsTotal SkaterResult mvLE :=
  ⟨fun a b => le_total b.majorityVictories a.majorityVictories⟩

instance : IsTrans SkaterResult mvLE :=
  ⟨fun _ _ _ hab hbc => le_trans hbc hab⟩

/-- The cascade comparator, written as a lexicographic condition on the
four level values. -/
theorem cascLE_iff_key (cs bs ca : String → ℚ) (a b : SkaterResult) :
    cascLE cs bs ca a b ↔
      (cs b.name < cs a.name ∨ (cs a.name = cs b.name ∧
        (bs b.name < bs a.name ∨ (bs a.name = bs b.name ∧
          (ca b.name < ca a.name ∨ (ca a.name = ca b.name ∧
            b.totalScore ≤ a.totalScore)))))) := by
  unfold cascLE
  by_cases h1 : cs a.name = cs b.name <;> by_cases h2 : bs a.name = bs b.name <;>
    by_cases h3 : ca a.name = ca b.name <;> simp [h1, h2, h3]

instance (cs bs ca : String → ℚ) : IsTotal SkaterResult (cascLE cs bs ca) := by
  constructor
  intro a b
  rw [cascLE_iff_key, cascLE_iff_key]
  rcases lt_trichotomy (cs a.name) (cs b.name) with h | h | h
  · right; left; exact h
  · rcases lt_trichotomy (bs a.name) (bs b.name) with h' | h' | h'
    · right; right; exact ⟨h.symm, Or.inl h'⟩
    · rcases lt_trichotomy (ca a.name) (ca b.name) with h'' | h'' | h''
      · right; right; exact ⟨h.symm, Or.inr ⟨h'.symm, Or.inl h''⟩⟩
      · rcases le_total b.totalScore a.totalScore with ht | ht
        · left; right; exact ⟨h, Or.inr ⟨h', Or.inr ⟨h'', ht⟩⟩⟩
        · right; right; exact ⟨h.symm, Or.inr ⟨h'.symm, Or.inr ⟨h''.symm, ht⟩⟩⟩
      · left; right; exact ⟨h, Or.inr ⟨h', Or.inl h''⟩⟩
    · left; right; exact ⟨h, Or.inl h'⟩
  · left; left; exact h

instance (cs bs ca : String → ℚ) : IsTrans SkaterResult (cascLE cs bs ca) := by
  constructor
  intro a b c hab hbc
  rw [cascLE_iff_key] at hab hbc ⊢
  rcases hab with h1 | ⟨e1, hab⟩
  · rcases hbc with h2 | ⟨e2, hbc⟩
    · left; linarith
    · left; linarith
  · rcases hbc with h2 | ⟨e2, hbc⟩
    · left; linarith
    · right
      refine ⟨e1.trans e2, ?_⟩
      rcases hab with h1 | ⟨f1, hab⟩
      · rcases hbc with h2 | ⟨f2, hbc⟩
        · left; linarith
        · left; linarith
      · rcases hbc with h2 | ⟨f2, hbc⟩
        · left; linarith
        · right
          refine ⟨f1.trans f2, ?_⟩
          rcases hab with h1 | ⟨g1, hab⟩
          · rcases hbc with h2 | ⟨g2, hbc⟩
            · left; linarith
            · left; linarith
          · rcases hbc with h2 | ⟨g2, hbc⟩
            · left; linarith
            · right; exact ⟨g1.trans g2, le_trans hbc hab⟩

/-! ## Structure of the tied-group runs -/

theorem splitRuns_cons_ne_nil (x : SkaterResult) (xs : List SkaterResult) :
    splitRuns (x :: xs) ≠ [] := by
  cases xs with
  | nil => simp [splitRuns]
  | cons y rest =>
    simp only [splitRuns]
    rcases h : splitRuns (y :: rest) with _ | ⟨r, rs⟩
    · simp
    · split_ifs <;> simp

theorem splitRuns_cons_cons (x y : SkaterResult) (rest : List SkaterResult)
    (r : List SkaterResult) (rs : List (List SkaterResult))
    (h : splitRuns (y :: rest) = r :: rs) :
    splitRuns (x :: y :: rest) =
      if x.majorityVictories = y.majorityVictories then (x :: r) :: rs
      else [x] :: r :: rs := by
  simp only [splitRuns, h]

theorem splitRuns_head (x : SkaterResult) (xs : List SkaterResult) :
    ∃ t rs, splitRuns (x :: xs) = (x :: t) :: rs := by
  cases xs with
  | nil => exact ⟨[], [], rfl⟩
  | cons y rest =>
    obtain ⟨r, rs, h⟩ := List.exists_cons_of_ne_nil (splitRuns_cons_ne_nil y rest)
    rw [splitRuns_cons_cons x y rest r rs h]
    split_ifs with hmv
    · exact ⟨r, rs, rfl⟩
    · exact ⟨[], r :: rs, rfl⟩

theorem splitRuns_join (l : List SkaterResult) : (splitRuns l).flatten = l := by
  induction l with
  | nil => rfl
  | cons x xs ih =>
    cases xs with
    | nil => rfl
    | cons y rest =>
      obtain ⟨r, rs, h⟩ := List.exists_cons_of_ne_nil (splitRuns_cons_ne_nil y rest)
      rw [splitRuns_cons_cons x y rest r rs h]
      rw [h] at ih
      simp only [List.flatten_cons] at ih
      split_ifs with hmv
      · simp only [List.flatten_cons, List.cons_append, ih]
      · simp only [List.flatten_cons, List.singleton_append, ih]

theorem splitRuns_sublist (l : List SkaterResult) : ∀ run ∈ splitRuns l, run.Sublist l := by
  induction l with
  | nil => intro run h; simp [splitRuns] at h
  | cons x xs ih =>
    cases xs with
    | nil =>
      intro run h
      simp only [splitRuns, List.mem_singleton] at h
      subst h
      exact List.Sublist.refl [x]
    | cons y rest =>
      obtain ⟨r, rs, h⟩ := List.exists_cons_of_ne_nil (splitRuns_cons_ne_nil y rest)
      intro run hrun
      rw [splitRuns_cons_cons x y rest r rs h] at hrun
      have hr : r ∈ splitRuns (y :: rest) := by rw [h]; exact List.mem_cons_self r rs
      have hrs : ∀ q ∈ rs, q ∈ splitRuns (y :: rest) := fun q hq => by
        rw [h]; exact List.mem_cons_of_mem r hq
      split_ifs at hrun with hmv
      · rcases List.mem_cons.mp hrun with rfl | hrun'
        · exact (ih r hr).cons_cons x
        · exact (ih run (hrs run hrun')).cons x
      · rcases List.mem_cons.mp hrun with rfl | hrun'
        · exact (List.nil_sublist (y :: rest)).cons_cons x
        · rcases List.mem_cons.mp hrun' with rfl | hrun''
          · exact (ih run hr).cons x
          · exact (ih run (hrs run hrun'')).cons x

theorem splitRuns_const (l : List SkaterResult) :
    ∀ run ∈ splitRuns l, ∀ a ∈ run, ∀ b ∈ run,
      a.majorityVictories = b.majorityVictories := by
  induction l with
  | nil => intro run h; simp [splitRuns] at h
  | cons x xs ih =>
    cases xs with
    | nil =>
      intro run h a ha b hb
      simp only [splitRuns, List.mem_singleton] at h
      subst h
      rw [List.mem_singleton.mp ha, List.mem_singleton.mp hb]
    | cons y rest =>
      obtain ⟨r, rs, h⟩ := List.exists_cons_of_ne_nil (splitRuns_cons_ne_nil y rest)
      obtain ⟨t, rs', hh⟩ := splitRuns_head y rest
      rw [h] at hh
      obtain ⟨hr_eq, _⟩ : r = y :: t ∧ rs = rs' := by
        constructor <;> injection hh <;> assumption
      have hr : r ∈ splitRuns (y :: rest) := by rw [h]; exact List.mem_cons_self r rs
      have hrs : ∀ q ∈ rs, q ∈ splitRuns (y :: rest) := fun q hq => by
        rw [h]; exact List.mem_cons_of_mem r hq
      have hyr : y ∈ r := by rw [hr_eq]; exact List.mem_cons_self y t
      intro run hrun a ha b hb
      rw [splitRuns_cons_cons x y rest r rs h] at hrun
      split_ifs at hrun with hmv
      · rcases List.mem_cons.mp hrun with rfl | hrun'
        · have hmem : ∀ q ∈ x :: r, q.majorityVictories = x.majorityVictories := by
            intro q hq
            rcases List.mem_cons.mp hq with rfl | hq'
            · rfl
            · rw [ih r hr q hq' y hyr, ← hmv]
          rw [hmem a ha, hmem b hb]
        · exact ih run (hrs run hrun') a ha b hb
      · rcases List.mem_cons.mp hrun with rfl | hrun'
        · rw [List.mem_singleton.mp ha, List.mem_singleton.mp hb]
        · rcases List.mem_cons.mp hrun' with rfl | hrun''
          · exact ih run hr a ha b hb
          · exact ih run (hrs run hrun'') a ha b hb

/-! ## Facts about `mapIdxFrom` -/

theorem mapIdxFrom_length {α β : Type} (f : ℕ → α → β) :
    ∀ (k : ℕ) (l : List α), (mapIdxFrom f k l).length = l.length := by
  intro k l
  induction l generalizing k with
  | nil => rfl
  | cons x xs ih => simp [mapIdxFrom, ih]

theorem mapIdxFrom_mem {α β : Type} (f : ℕ → α → β) :
    ∀ (k : ℕ) (l : List α), ∀ y ∈ mapIdxFrom f k l, ∃ j a, a ∈ l ∧ y = f j a := by
  intro k l
  induction l generalizing k with
  | nil => intro y hy; simp [mapIdxFrom] at hy
  | cons x xs ih =>
    intro y hy
    rcases List.mem_cons.mp hy with rfl | hy'
    · exact ⟨k, x, List.mem_cons_self x xs, rfl⟩
    · obtain ⟨j, a, ha, rfl⟩ := ih (k + 1) y hy'
      exact ⟨j, a, List.mem_cons_of_mem x ha, rfl⟩

theorem mapIdxFrom_getElem {α β : Type} (f : ℕ → α → β) :
    ∀ (l : List α) (k i : ℕ) (h : i < (mapIdxFrom f k l).length) (h' : i < l.length),
      (mapIdxFrom f k l)[i] = f (k + i) (l[i]) := by
  intro l
  induction l with
  | nil => intro k i h h'; cases h'
  | cons x xs ih =>
    intro k i h h'
    cases i with
    | zero => rfl
    | succ j =>
      have hj : j < (mapIdxFrom f (k + 1) xs).length := by
        rw [mapIdxFrom_length]
        exact Nat.lt_of_succ_lt_succ h'
      have hj' : j < xs.length := Nat.lt_of_succ_lt_succ h'
      show (mapIdxFrom f (k + 1) xs)[j] = f (k + (j + 1)) ((x :: xs)[j + 1])
      rw [ih (k + 1) j hj hj']
      congr 1
      omega

/-! ## Rank assignment -/

theorem mapIdxFrom_map_rank (f : ℕ → SkaterResult → SkaterResult) (c : ℕ)
    (hf : ∀ k a, (f k a).rank = c + k) :
    ∀ (l : List SkaterResult) (k : ℕ),
      ((mapIdxFrom f k l).map SkaterResult.rank) = List.range' (c + k) l.length := by
  intro l
  induction l with
  | nil => intro k; rfl
  | cons x xs ih =>
    intro k
    simp only [mapIdxFrom, List.map_cons, List.length_cons, List.range'_succ, hf]
    rw [ih (k + 1)]
    rfl

theorem length_sortTiedGroup (g : List SkaterResult) (skaters : List SkaterScores) :
    (sortTiedGroup g skaters).length = g.length := by
  unfold sortTiedGroup
  exact List.length_insertionSort _ g

theorem processTiedGroup_map_rank (g : List SkaterResult) (skaters : List SkaterScores)
    (c : ℕ) :
    (processTiedGroup g skaters c).map SkaterResult.rank = List.range' c g.length := by
  unfold processTiedGroup
  split_ifs with hlen
  · match g, hlen with
    | [], _ => rfl
    | [a], _ => rfl
  · unfold decorateGroup
    rw [mapIdxFrom_map_rank _ c (by intro k a; rfl) (sortTiedGroup g skaters) 0,
      length_sortTiedGroup]
    rfl

theorem assignAndProcess_map_rank :
    ∀ (groups : List (List SkaterResult)) (skaters : List SkaterScores) (c : ℕ),
      (assignAndProcess groups skaters c).map SkaterResult.rank =
        List.range' c ((groups.map List.length).sum) := by
  intro groups
  induction groups with
  | nil => intro skaters c; rfl
  | cons g rest ih =>
    intro skaters c
    simp only [assignAndProcess, List.map_append, List.map_cons, List.sum_cons]
    rw [processTiedGroup_map_rank, ih]
    have h := List.range'_append c g.length ((rest.map List.length).sum) 1
    rw [one_mul] at h
    rw [h, Nat.add_comm]

theorem processTiedGroup_mem_mv (g : List SkaterResult) (skaters : List SkaterScores)
    (c : ℕ) :
    ∀ x ∈ processTiedGroup g skaters c,
      ∃ b ∈ g, x.majorityVictories = b.majorityVictories := by
  unfold processTiedGroup
  split_ifs with hlen
  · intro x hx
    simp only [List.mem_map] at hx
    obtain ⟨b, hb, rfl⟩ := hx
    exact ⟨b, hb, rfl⟩
  · intro x hx
    unfold decorateGroup at hx
    obtain ⟨j, cur, hcur, rfl⟩ := mapIdxFrom_mem _ 0 (sortTiedGroup g skaters) x hx
    have hcg : cur ∈ g := (List.perm_insertionSort _ g).mem_iff.mp hcur
    exact ⟨cur, hcg, rfl⟩

theorem assignAndProcess_mem_mv :
    ∀ (groups : List (List SkaterResult)) (skaters : List SkaterScores) (c : ℕ),
      ∀ x ∈ assignAndProcess groups skaters c,
        ∃ run ∈ groups, ∃ b ∈ run, x.majorityVictories = b.majorityVictories := by
  intro groups
  induction groups with
  | nil => intro skaters c x hx; simp [assignAndProcess] at hx
  | cons g rest ih =>
    intro skaters c x hx
    rcases List.mem_append.mp hx with hx' | hx'
    · obtain ⟨b, hb, he⟩ := processTiedGroup_mem_mv g skaters c x hx'
      exact ⟨g, List.mem_cons_self g rest, b, hb, he⟩
    · obtain ⟨run, hrun, b, hb, he⟩ := ih skaters (c + g.length) x hx'
      exact ⟨run, List.mem_cons_of_mem g hrun, b, hb, he⟩

theorem assignAndProcess_pairwise
    (groups : List (List SkaterResult)) (skaters : List SkaterScores)
    (hconst : ∀ run ∈ groups, ∀ a ∈ run, ∀ b ∈ run,
      a.majorityVictories = b.majorityVictories)
    (hacross : List.Pairwise (fun r1 r2 => ∀ a ∈ r1, ∀ b ∈ r2,
      b.majorityVictories ≤ a.majorityVictories) groups) :
    ∀ c, List.Pairwise (fun a b : SkaterResult =>
      b.majorityVictories ≤ a.majorityVictories) (assignAndProcess groups skaters c) := by
  induction groups with
  | nil => intro c; simp [assignAndProcess]
  | cons g rest ih =>
    intro c
    rcases List.pairwise_cons.mp hacross with ⟨hg, hrest⟩
    simp only [assignAndProcess]
    rw [List.pairwise_append]
    refine ⟨?_, ?_, ?_⟩
    · apply List.pairwise_of_forall_mem_list
      intro a ha b hb
      obtain ⟨a', ha', hea⟩ := processTiedGroup_mem_mv g skaters c a ha
      obtain ⟨b', hb', heb⟩ := processTiedGroup_mem_mv g skaters c b hb
      rw [hea, heb, hconst g (List.mem_cons_self g rest) b' hb' a' ha']
    · exact ih (fun run hr => hconst run (List.mem_cons_of_mem g hr)) hrest (c + g.length)
    · intro a ha b hb
      obtain ⟨a', ha', hea⟩ := processTiedGroup_mem_mv g skaters c a ha
      obtain ⟨run, hrun, b', hb', heb⟩ := assignAndProcess_mem_mv rest skaters (c + g.length) b hb
      rw [hea, heb]
      exact hg run hrun a' ha' b' hb'

/-! ## C1: ranks are exactly 1..n and follow majority victories -/

theorem length_resultsWithMV (skaters : List SkaterScores) :
    (resultsWithMV skaters).length = skaters.length := by
  unfold resultsWithMV
  simp

theorem groups_length_sum (skaters : List SkaterScores) :
    (((rankingsGroups skaters).map List.length).sum) = skaters.length := by
  rw [← List.length_flatten]
  unfold rankingsGroups
  rw [splitRuns_join]
  unfold sortedByMV
  rw [List.length_insertionSort, length_resultsWithMV]

/-- C1: `calculateRankings` returns the competitors ordered by rank with
ranks exactly `1..n` (consecutive and distinct, also inside tied
groups), and a competitor with strictly more majority victories always
receives a strictly smaller rank. -/
theorem rank_assignment_correct (skaters : List SkaterScores) :
    ((calculateRankings skaters).map SkaterResult.rank =
      List.range' 1 skaters.length) ∧
    ∀ x ∈ calculateRankings skaters, ∀ y ∈ calculateRankings skaters,
      y.majorityVictories < x.majorityVictories → x.rank < y.rank := by
  by_cases hn : skaters.length = 0
  · have : skaters = [] := List.length_eq_zero.mp hn
    subst this
    exact ⟨rfl, fun x hx => by simp [calculateRankings] at hx⟩
  · have hcr : calculateRankings skaters =
        assignAndProcess (rankingsGroups skaters) skaters 1 := by
      unfold calculateRankings
      rw [if_neg hn]
    have hranks : (calculateRankings skaters).map SkaterResult.rank =
        List.range' 1 skaters.length := by
      rw [hcr, assignAndProcess_map_rank, groups_length_sum]
    refine ⟨hranks, ?_⟩
    have hsorted : List.Pairwise mvLE (sortedByMV skaters) :=
      List.sorted_insertionSort mvLE (resultsWithMV skaters)
    have hflat : List.Pairwise mvLE ((rankingsGroups skaters).flatten) := by
      unfold rankingsGroups
      rw [splitRuns_join]
      exact hsorted
    have hacross := (List.pairwise_flatten.mp hflat).2
    have hpair : List.Pairwise (fun a b : SkaterResult =>
        b.majorityVictories ≤ a.majorityVictories) (calculateRankings skaters) := by
      rw [hcr]
      exact assignAndProcess_pairwise (rankingsGroups skaters) skaters
        (splitRuns_const (sortedByMV skaters)) hacross 1
    intro x hx y hy hmv
    obtain ⟨i, hi, hxi⟩ := List.mem_iff_getElem.mp hx
    obtain ⟨j, hj, hyj⟩ := List.mem_iff_getElem.mp hy
    have hlen : (calculateRankings skaters).length = skaters.length := by
      have := congrArg List.length hranks
      simpa using this
    have hrank_at : ∀ (m : ℕ) (hm : m < (calculateRankings skaters).length),
        ((calculateRankings skaters)[m]).rank = 1 + m := by
      intro m hm
      have hm2 : m < ((calculateRankings skaters).map SkaterResult.rank).length := by
        rw [List.length_map]; exact hm
      have h3 := List.getElem_of_eq hranks hm2
      rw [List.getElem_map] at h3
      rw [List.getElem_range'] at h3
      simpa using h3
    rcases lt_trichotomy i j with hij | hij | hij
    · rw [← hxi, ← hyj, hrank_at i hi, hrank_at j hj]
      omega
    · subst hij
      rw [hxi] at hyj
      subst hyj
      exact absurd hmv (lt_irrefl _)
    · exfalso
      have := List.pairwise_iff_getElem.mp hpair j i hj hi hij
      rw [hxi, hyj] at this
      linarith

def dummyResult : SkaterResult :=
  { name := "", aScores := [], bScores := [], totalScore := 0, rank := 0,
    majorityVictories := 0, tieBreakLevel := none, tieBreakValue := none,
    headToHeadResults := [] }

theorem rank_assignment_correct_witness :
    ((calculateRankings twoSkaters).map SkaterResult.rank =
      List.range' 1 twoSkaters.length) ∧
    ((calculateRankings twoSkaters).getD 0 dummyResult).rank <
      ((calculateRankings twoSkaters).getD 1 dummyResult).rank :=
  ⟨(rank_assignment_correct twoSkaters).1,
    (rank_assignment_correct twoSkaters).2
      ((calculateRankings twoSkaters).getD 0 dummyResult) (by decide)
      ((calculateRankings twoSkaters).getD 1 dummyResult) (by decide) (by decide)⟩

/-! ## Maps built by one `set` per member -/

theorem foldl_setEntry_skip (f : SkaterScores → ℚ) :
    ∀ (l : List SkaterScores) (m : String → ℚ) (nm : String),
      (∀ s ∈ l, s.name ≠ nm) →
      (l.foldl (fun m s => setEntry m s.name (f s)) m) nm = m nm := by
  intro l
  induction l with
  | nil => intro m nm _; rfl
  | cons a as ih =>
    intro m nm h
    simp only [List.foldl_cons]
    rw [ih _ nm (fun s hs => h s (List.mem_cons_of_mem a hs))]
    unfold setEntry
    rw [if_neg (fun he => h a (List.mem_cons_self a as) he.symm)]

theorem foldl_setEntry_value (f : SkaterScores → ℚ) :
    ∀ (l : List SkaterScores) (m : String → ℚ) (x : SkaterScores),
      List.Pairwise (fun a b : SkaterScores => a.name ≠ b.name) l → x ∈ l →
      (l.foldl (fun m s => setEntry m s.name (f s)) m) x.name = f x := by
  intro l
  induction l with
  | nil => intro m x _ hx; cases hx
  | cons a as ih =>
    intro m x hpw hx
    rcases List.pairwise_cons.mp hpw with ⟨ha, has⟩
    simp only [List.foldl_cons]
    rcases List.mem_cons.mp hx with rfl | hx'
    · rw [foldl_setEntry_skip f as _ x.name (fun s hs => (ha s hs).symm)]
      unfold setEntry
      rw [if_pos rfl]
    · exact ih _ x has hx'

/-! ## Pedigree of group members inside the pipeline -/

theorem resultsWithMV_mem (skaters : List SkaterScores) :
    ∀ r ∈ resultsWithMV skaters, ∃ s ∈ skaters,
      r.name = s.name ∧ r.toScores = s ∧
      r.totalScore = roundToOneDecimal (calculateTotalScore s) := by
  intro r hr
  unfold resultsWithMV at hr
  simp only [List.mem_map] at hr
  obtain ⟨s, hs, rfl⟩ := hr
  refine ⟨s, hs, rfl, ?_, rfl⟩
  cases s
  rfl

theorem sortTiedGroup_perm (g : List SkaterResult) (skaters : List SkaterScores) :
    (sortTiedGroup g skaters).Perm g := by
  unfold sortTiedGroup
  exact List.perm_insertionSort _ g

theorem group_mem_results (skaters : List SkaterScores) (g : List SkaterResult)
    (hg : g ∈ rankingsGroups skaters) :
    ∀ r ∈ g, r ∈ resultsWithMV skaters := by
  intro r hr
  have hsub := splitRuns_sublist (sortedByMV skaters) g hg
  have hr2 : r ∈ sortedByMV skaters := hsub.subset hr
  unfold sortedByMV at hr2
  exact (List.perm_insertionSort mvLE (resultsWithMV skaters)).mem_iff.mp hr2

theorem resultsWithMV_names (skaters : List SkaterScores) :
    (resultsWithMV skaters).map SkaterResult.name = skaters.map SkaterScores.name := by
  unfold resultsWithMV
  rw [List.map_map]
  rfl

theorem group_names_nodup (skaters : List SkaterScores)
    (h : (skaters.map SkaterScores.name).Nodup) (g : List SkaterResult)
    (hg : g ∈ rankingsGroups skaters) :
    (g.map SkaterResult.name).Nodup := by
  have hsub := splitRuns_sublist (sortedByMV skaters) g hg
  have hmapsub := hsub.map SkaterResult.name
  apply hmapsub.nodup
  have hperm : (sortedByMV skaters).Perm (resultsWithMV skaters) := by
    unfold sortedByMV
    exact List.perm_insertionSort mvLE (resultsWithMV skaters)
  rw [(hperm.map SkaterResult.name).nodup_iff, resultsWithMV_names]
  exact h

/-! ## C4: the cascade orders a tied group by the claimed keys

The next four definitions are written from the claim's wording, not from
the code: the four level values of a tied-group member.  `G \ {X}` and
`U \ {X}` are read as "the members whose name differs from X's", which
coincides with element removal when names are pairwise distinct. -/

/-- Claim level 1: the sum of PairScore(X,Y) over Y in G \ {X}. -/
def claimLevel1 (g : List SkaterResult) (x : SkaterResult) : ℚ :=
  ((g.filter (fun y => decide (y.name ≠ x.name))).map
    (fun y => pairwiseComparison x.toScores y.toScores)).sum

/-- Claim level 2: the sum of X's raw non-missing artistic marks. -/
def claimBScoreSum (x : SkaterResult) : ℚ :=
  (x.bScores.filterMap id).sum

/-- Claim level 3: the sum of PairScore(X,Y) over Y in U \ {X}, the
whole competitor universe. -/
def claimLevel3 (skaters : List SkaterScores) (x : SkaterResult) : ℚ :=
  ((skaters.filter (fun y => decide (y.name ≠ x.name))).map
    (fun y => pairwiseComparison x.toScores y)).sum

/-- Claim level 4: the one-decimal-rounded total score. -/
def claimLevel4 (x : SkaterResult) : ℚ :=
  roundToOneDecimal (calculateTotalScore x.toScores)

/-- "a may come no later than b" in the descending lexicographic order
of the four claimed level values. -/
def claimCascGE (skaters : List SkaterScores) (g : List SkaterResult)
    (a b : SkaterResult) : Prop :=
  claimLevel1 g b < claimLevel1 g a ∨ (claimLevel1 g a = claimLevel1 g b ∧
    (claimBScoreSum b < claimBScoreSum a ∨ (claimBScoreSum a = claimBScoreSum b ∧
      (claimLevel3 skaters b < claimLevel3 skaters a ∨
        (claimLevel3 skaters a = claimLevel3 skaters b ∧
          claimLevel4 b ≤ claimLevel4 a)))))

instance (skaters : List SkaterScores) (g : List SkaterResult) :
    DecidableRel (claimCascGE skaters g) := fun a b => by
  unfold claimCascGE
  infer_instance

theorem toScores_names_pairwise (g : List SkaterResult)
    (h : (g.map SkaterResult.name).Nodup) :
    List.Pairwise (fun a b : SkaterScores => a.name ≠ b.name)
      (g.map SkaterResult.toScores) := by
  rw [List.pairwise_map]
  exact List.pairwise_map.mp h

theorem groupDirect_eq_claim (g : List SkaterResult)
    (h : (g.map SkaterResult.name).Nodup) (x : SkaterResult) (hx : x ∈ g) :
    tieBreakByDirectComparison (g.map SkaterResult.toScores) x.name = claimLevel1 g x := by
  have hpw := toScores_names_pairwise g h
  have hmem : x.toScores ∈ g.map SkaterResult.toScores := List.mem_map_of_mem _ hx
  have hrep := tieBreakByDirectComparison_rep (g.map SkaterResult.toScores) hpw
    x.toScores hmem
  have hxn : x.toScores.name = x.name := rfl
  rw [hxn] at hrep
  rw [hrep]
  unfold claimLevel1
  rw [List.filter_map, List.map_map]
  rfl

theorem groupBSums_eq_claim (g : List SkaterResult)
    (h : (g.map SkaterResult.name).Nodup) (x : SkaterResult) (hx : x ∈ g) :
    bScoreSumsMap (g.map SkaterResult.toScores) x.name = claimBScoreSum x := by
  have hpw := toScores_names_pairwise g h
  have hmem : x.toScores ∈ g.map SkaterResult.toScores := List.mem_map_of_mem _ hx
  exact foldl_setEntry_value calculateBScoreSum (g.map SkaterResult.toScores) _
    x.toScores hpw hmem

theorem groupCompAll_eq_claim (skaters : List SkaterScores) (g : List SkaterResult)
    (h : (g.map SkaterResult.name).Nodup) (x : SkaterResult) (hx : x ∈ g) :
    tieBreakByComparisonWithAll (g.map SkaterResult.toScores) skaters x.name =
      claimLevel3 skaters x := by
  have hpw := toScores_names_pairwise g h
  have hmem : x.toScores ∈ g.map SkaterResult.toScores := List.mem_map_of_mem _ hx
  exact foldl_setEntry_value _ (g.map SkaterResult.toScores) _ x.toScores hpw hmem

theorem group_totalScore_eq_claim (skaters : List SkaterScores) (g : List SkaterResult)
    (hg : g ∈ rankingsGroups skaters) (x : SkaterResult) (hx : x ∈ g) :
    x.totalScore = claimLevel4 x := by
  obtain ⟨s, _, _, hts, htot⟩ :=
    resultsWithMV_mem skaters x (group_mem_results skaters g hg x hx)
  unfold claimLevel4
  rw [htot, hts]

/-- C4 (amended: under pairwise-distinct competitor names — the
tie-break maps are keyed by name): every tied group arising in
`calculateRankings` is cascade-sorted in descending lexicographic order
of the four claimed level values: the group-restricted pair-score sum,
the raw artistic-mark sum, the pair-score sum against the whole
universe, and the one-decimal-rounded total score. -/
theorem cascade_orders_by_claimed_keys (skaters : List SkaterScores)
    (h : (skaters.map SkaterScores.name).Nodup) :
    ∀ g ∈ rankingsGroups skaters, 2 ≤ g.length →
      List.Pairwise (claimCascGE skaters g) (sortTiedGroup g skaters) := by
  intro g hg _
  have hnodupg := group_names_nodup skaters h g hg
  have hsorted : List.Pairwise
      (cascLE (tieBreakByDirectComparison (g.map SkaterResult.toScores))
        (bScoreSumsMap (g.map SkaterResult.toScores))
        (tieBreakByComparisonWithAll (g.map SkaterResult.toScores) skaters))
      (sortTiedGroup g skaters) := by
    unfold sortTiedGroup
    exact List.sorted_insertionSort _ g
  apply List.Pairwise.imp_of_mem ?_ hsorted
  intro a b ha hb hab
  have hag : a ∈ g := (sortTiedGroup_perm g skaters).mem_iff.mp ha
  have hbg : b ∈ g := (sortTiedGroup_perm g skaters).mem_iff.mp hb
  rw [cascLE_iff_key] at hab
  unfold claimCascGE
  rw [groupDirect_eq_claim g hnodupg a hag, groupDirect_eq_claim g hnodupg b hbg,
    groupBSums_eq_claim g hnodupg a hag, groupBSums_eq_claim g hnodupg b hbg,
    groupCompAll_eq_claim skaters g hnodupg a hag,
    groupCompAll_eq_claim skaters g hnodupg b hbg,
    group_totalScore_eq_claim skaters g hg a hag,
    group_totalScore_eq_claim skaters g hg b hbg] at hab
  exact hab

/-- A duplicate-name input whose single tied group the cascade orders
against the claimed keys: both competitors are named "A", so the
B-score-sum map entry is overwritten and the sort falls through to the
total score. -/
def c4CexSkaters : List SkaterScores :=
  [⟨"A", [some 0, some 0], [some 3, some 0]⟩, ⟨"A", [some 3, some 1], [some 0, some 0]⟩]

/-- C4 counterexample: on `c4CexSkaters` the two competitors tie at
majority victories 1 and form one group; the claimed keys tie at level 1
and separate at level 2 (artistic sums 3 vs 0, first listed competitor
ahead), but the code sorts the second listed competitor first (higher
rounded total, 4 vs 3), because all name-keyed map lookups coincide. -/
theorem cascade_orders_by_claimed_keys_cex :
    (rankingsGroups c4CexSkaters).getD 0 [] ∈ rankingsGroups c4CexSkaters ∧
    2 ≤ ((rankingsGroups c4CexSkaters).getD 0 []).length ∧
    ¬ List.Pairwise (claimCascGE c4CexSkaters ((rankingsGroups c4CexSkaters).getD 0 []))
      (sortTiedGroup ((rankingsGroups c4CexSkaters).getD 0 []) c4CexSkaters) := by
  decide

/-- A distinct-names input with one tied group of two. -/
def c4WitSkaters : List SkaterScores :=
  [⟨"X", [some 3], [some 2]⟩, ⟨"Y", [some 3], [some 2]⟩]

theorem cascade_orders_by_claimed_keys_witness :
    List.Pairwise (claimCascGE c4WitSkaters ((rankingsGroups c4WitSkaters).getD 0 []))
      (sortTiedGroup ((rankingsGroups c4WitSkaters).getD 0 []) c4WitSkaters) :=
  cascade_orders_by_claimed_keys c4WitSkaters (by decide)
    ((rankingsGroups c4WitSkaters).getD 0 []) (by decide) (by decide)

/-! ## C9: the single-summary tie-break fields -/

/-- The three tie-break maps computed for a tied group at
scoring.ts:336-346. -/
def groupTieBreakMaps (tiedGroup : List SkaterResult) (skaters : List SkaterScores) :
    (String → ℚ) × (String → ℚ) × (String → ℚ) :=
  let tiedSkaters := tiedGroup.map SkaterResult.toScores
  (tieBreakByDirectComparison tiedSkaters, bScoreSumsMap tiedSkaters,
    tieBreakByComparisonWithAll tiedSkaters skaters)

/-- C9: for every member of a processed tied group, the summary fields
`(tieBreakLevel, tieBreakValue)` record the first cascade level
(direct-comparison, b-score-sum, comparison-all, total-score, in that
order) at which the member's value differs from its immediate neighbor
in the final sorted order (the next member, or the previous one for the
last member), and stay absent when all four levels agree. -/
theorem tiebreak_summary_neighbor (skaters : List SkaterScores) :
    ∀ (g : List SkaterResult) (c k : ℕ), 2 ≤ g.length → k < g.length →
    ∃ cur nb : SkaterResult,
      cur = (sortTiedGroup g skaters).getD k dummyResult ∧
      nb = (if k < (sortTiedGroup g skaters).length - 1
        then (sortTiedGroup g skaters).getD (k + 1) cur
        else (sortTiedGroup g skaters).getD (k - 1) cur) ∧
      ((processTiedGroup g skaters c).getD k dummyResult).tieBreakLevel =
        (tieBreakSummary ((groupTieBreakMaps g skaters).1 cur.name)
          ((groupTieBreakMaps g skaters).2.1 cur.name)
          ((groupTieBreakMaps g skaters).2.2 cur.name) cur.totalScore
          ((groupTieBreakMaps g skaters).1 nb.name)
          ((groupTieBreakMaps g skaters).2.1 nb.name)
          ((groupTieBreakMaps g skaters).2.2 nb.name) nb.totalScore).map Prod.fst ∧
      ((processTiedGroup g skaters c).getD k dummyResult).tieBreakValue =
        (tieBreakSummary ((groupTieBreakMaps g skaters).1 cur.name)
          ((groupTieBreakMaps g skaters).2.1 cur.name)
          ((groupTieBreakMaps g skaters).2.2 cur.name) cur.totalScore
          ((groupTieBreakMaps g skaters).1 nb.name)
          ((groupTieBreakMaps g skaters).2.1 nb.name)
          ((groupTieBreakMaps g skaters).2.2 nb.name) nb.totalScore).map Prod.snd := by
  intro g c k h2 hk
  have hks : k < (sortTiedGroup g skaters).length := by
    rw [length_sortTiedGroup]; exact hk
  have hkp : k < (processTiedGroup g skaters c).length := by
    unfold processTiedGroup
    rw [if_neg (by omega)]
    unfold decorateGroup
    rw [mapIdxFrom_length, length_sortTiedGroup]
    exact hk
  refine ⟨(sortTiedGroup g skaters).getD k dummyResult, _, rfl, rfl, ?_, ?_⟩ <;>
  · rw [List.getD_eq_getElem _ _ hkp]
    have hproc : processTiedGroup g skaters c =
        decorateGroup (tieBreakByDirectComparison (g.map SkaterResult.toScores))
          (bScoreSumsMap (g.map SkaterResult.toScores))
          (tieBreakByComparisonWithAll (g.map SkaterResult.toScores) skaters)
          (sortTiedGroup g skaters) c := by
      unfold processTiedGroup
      rw [if_neg (by omega)]
    have hkp2 : k < (decorateGroup (tieBreakByDirectComparison (g.map SkaterResult.toScores))
        (bScoreSumsMap (g.map SkaterResult.toScores))
        (tieBreakByComparisonWithAll (g.map SkaterResult.toScores) skaters)
        (sortTiedGroup g skaters) c).length := by
      unfold decorateGroup
      rw [mapIdxFrom_length]
      exact hks
    rw [List.getElem_of_eq hproc hkp]
    unfold decorateGroup
    rw [mapIdxFrom_getElem _ (sortTiedGroup g skaters) 0 k hkp2 hks]
    rw [List.getD_eq_getElem _ _ hks]
    simp only [Nat.zero_add]
    rfl

/-- A tied pair (one majority victory point each) that the cascade
separates at level 2: equal direct-comparison values, artistic sums 1
vs 2. -/
def c9WitSkaters : List SkaterScores :=
  [⟨"P", [some 3, some 0], [some 0, some 1]⟩, ⟨"Q", [some 0, some 2], [some 2, some 0]⟩]

theorem tiebreak_summary_neighbor_witness :
    ((processTiedGroup ((rankingsGroups c9WitSkaters).getD 0 []) c9WitSkaters 1).getD 0
      dummyResult).tieBreakLevel = some TieBreakLevel.bScoreSum ∧
    ((processTiedGroup ((rankingsGroups c9WitSkaters).getD 0 []) c9WitSkaters 1).getD 0
      dummyResult).tieBreakValue = some 2 := by
  obtain ⟨cur, nb, hcur, hnb, h1, h2⟩ := tiebreak_summary_neighbor c9WitSkaters
    ((rankingsGroups c9WitSkaters).getD 0 []) 1 0 (by decide) (by decide)
  subst hcur
  subst hnb
  refine ⟨?_, ?_⟩
  · rw [h1]; decide
  · rw [h2]; decide
